import Mathlib

/-!
A shallow embedding of `src/DocXEditor.py` (class `DocXEditor`).

The program edits WordprocessingML documents: `modify_text_in_doc` replaces the
first occurrence of `old_text` inside the first matching `w:t` node of each
paragraph by a tracked change (a `w:del` node wrapping the old text followed by
a `w:ins` node wrapping a run whose text is one space plus the new text), and
`add_comment_to_paragraph` splits a run so the target text stands alone and
anchors a comment on a fresh empty run.

Modelling conventions:
* text is `List Char` (`Text`), with Python string semantics (`in`,
  `str.partition`, `str.strip`) re-implemented below;
* a run (`w:r`) carries its run properties `rPr` (an optional character-style
  reference `rStyle` plus an opaque list of direct-formatting child elements)
  and the text of its `w:t` / `w:delText` child;
* a paragraph (`w:p`) carries its paragraph-properties child (`pPr`, opaque),
  its own XML attributes (opaque), and an ordered list of children, each a run,
  a `w:del` revision or a `w:ins` revision (whose children may again be runs or
  nested revisions, as `lxml` imposes no schema);
* the document body is the list of its paragraphs;
* `datetime.utcnow().isoformat()` is modelled as an opaque timestamp parameter;
* the itertools counter `self._id_counter` is modelled by explicit threading of
  the next id, and the ids actually drawn during a call are returned alongside
  the new tree so that theorems can speak about them (the Python call itself
  returns `None`; tree and counter are mutated session state);
* the comment-relationship part (comments.xml, range markers) is out of scope,
  as is zip/XML I/O: file contents are modelled as already-parsed bodies.
-/

namespace DocXEditor

abbrev Text := List Char

/-- Python `s.startswith(sep)`-style check: `sep` occurs at position 0 of `s`.
Used to implement `in` and `str.partition`. -/
def leadsWith : Text → Text → Bool
  | [], _ => true
  | _ :: _, [] => false
  | a :: as, b :: bs => a == b && leadsWith as bs

/-- Python `sep in s`: `sep` occurs contiguously in `s`.  As in Python,
the empty string occurs in every string. -/
def occursIn (sep s : Text) : Bool :=
  leadsWith sep s ||
    match s with
    | [] => false
    | _ :: t => occursIn sep t

/-- Python `s.partition(sep)` restricted to its first and third components:
the text before the first occurrence of `sep` and the text after it.
When `sep` does not occur the result is `(s, [])`, exactly as Python returns
`(s, '', '')`.  The Python `ValueError` on an empty separator is raised by the
caller (`modify_text_in_doc`) and modelled there. -/
def cutAt (s sep : Text) : Text × Text :=
  match s with
  | [] => ([], [])
  | c :: t =>
    if leadsWith sep (c :: t) then ([], (c :: t).drop sep.length)
    else (c :: (cutAt t sep).1, (cutAt t sep).2)

theorem leadsWith_nil_right (sep : Text) (h : leadsWith sep [] = true) : sep = [] := by
  cases sep with
  | nil => rfl
  | cons a as => simp [leadsWith] at h

theorem leadsWith_self (s : Text) : leadsWith s s = true := by
  induction s with
  | nil => rfl
  | cons a as ih => simp [leadsWith, ih]

theorem leadsWith_drop (sep : Text) :
    ∀ s : Text, leadsWith sep s = true → sep ++ s.drop sep.length = s := by
  induction sep with
  | nil => intro s _; simp
  | cons a as ih =>
    intro s h
    cases s with
    | nil => simp [leadsWith] at h
    | cons b bs =>
      simp only [leadsWith, Bool.and_eq_true, beq_iff_eq] at h
      obtain ⟨rfl, h2⟩ := h
      simpa using ih bs h2

theorem cutAt_spec (sep : Text) :
    ∀ s : Text, occursIn sep s = true →
      (cutAt s sep).1 ++ sep ++ (cutAt s sep).2 = s := by
  intro s
  induction s with
  | nil =>
    intro h
    rw [occursIn] at h
    simp only [Bool.or_eq_true] at h
    rcases h with h | h
    · have := leadsWith_nil_right sep h
      subst this
      rfl
    · simp at h
  | cons c t ih =>
    intro h
    rw [occursIn] at h
    simp only [Bool.or_eq_true] at h
    by_cases hl : leadsWith sep (c :: t) = true
    · simp only [cutAt, hl, if_true]
      simpa using leadsWith_drop sep (c :: t) hl
    · have ht : occursIn sep t = true := by
        rcases h with h | h
        · exact absurd h hl
        · exact h
      have hres := ih ht
      simp only [cutAt, hl, if_false]
      simpa using hres

theorem cutAt_self (s : Text) : cutAt s s = ([], []) := by
  cases s with
  | nil => rfl
  | cons c t =>
    simp [cutAt, leadsWith_self, List.drop_length]

theorem leadsWith_append (sep : Text) :
    ∀ s u : Text, leadsWith sep s = true → leadsWith sep (s ++ u) = true := by
  induction sep with
  | nil => intro s u _; rfl
  | cons a as ih =>
    intro s u h
    cases s with
    | nil => simp [leadsWith] at h
    | cons b bs =>
      simp only [leadsWith, Bool.and_eq_true, beq_iff_eq] at h
      obtain ⟨rfl, h2⟩ := h
      simp only [List.cons_append, leadsWith, Bool.and_eq_true, beq_iff_eq]
      simpa using ih bs u h2


theorem occursIn_append_left (sep : Text) :
    ∀ s u : Text, occursIn sep s = true → occursIn sep (s ++ u) = true := by
  intro s
  induction s with
  | nil =>
    intro u h
    rw [occursIn] at h
    simp only [Bool.or_eq_true] at h
    rcases h with h | h
    · have := leadsWith_nil_right sep h
      subst this
      cases u <;> simp [occursIn, leadsWith]
    · simp at h
  | cons c t ih =>
    intro u h
    rw [occursIn] at h
    simp only [Bool.or_eq_true] at h
    rw [List.cons_append, occursIn]
    simp only [Bool.or_eq_true]
    rcases h with h | h
    · exact Or.inl (leadsWith_append sep (c :: t) u h)
    · exact Or.inr (ih u h)

theorem occursIn_append_right (sep : Text) :
    ∀ s u : Text, occursIn sep u = true → occursIn sep (s ++ u) = true := by
  intro s
  induction s with
  | nil => intro u h; simpa using h
  | cons c t ih =>
    intro u h
    rw [List.cons_append, occursIn]
    simp only [Bool.or_eq_true]
    exact Or.inr (ih u h)

example : occursIn ['X'] ['a', 'X', 'b'] = true := by decide
example : occursIn ['X'] ['a', 'b'] = false := by decide
example : occursIn [] [] = true := by decide
example : occursIn [] ['a'] = true := by decide
example : cutAt ['a', 'X', 'b'] ['X'] = (['a'], ['b']) := by decide
example : cutAt ['X', 'b'] ['X'] = ([], ['b']) := by decide

/-- Attributes `w:id`, `w:author`, `w:date` carried by a `w:del` or `w:ins`
revision element (`modify_text_in_doc` writes all three). -/
structure RevAttrs where
  id : Nat
  author : Text
  date : Text
deriving DecidableEq

/-- Run properties (`w:rPr`): the optional character-style reference
(`w:rStyle`, what python-docx exposes as `run.style`) and the remaining
direct-formatting child elements, opaque to the program. -/
structure RPr where
  rStyle : Option Text
  direct : List Text
deriving DecidableEq

/-- A run (`w:r`): its properties and the text of its `w:t` (or, inside a
`w:del`, its `w:delText`) child.  The empty text stands for a run with no
text child; `lxml` reports its text as `None` and python-docx as `""`. -/
structure Run where
  rPr : RPr
  text : Text
deriving DecidableEq

/-- The run properties of a freshly created element: no `w:rPr` child at all
(`etree.SubElement(..., "w:r")` and python-docx `add_run`). -/
def blankRPr : RPr := ⟨none, []⟩

/-- A child of a paragraph: a run, a `w:del` revision wrapping one run whose
`w:delText` holds the deleted text, or a `w:ins` revision wrapping further
children (the program creates `w:ins` around a single run, but when
`modify_text_in_doc` matches text that already lies inside a `w:ins` it
splices new elements into that `w:ins`, so its children are again `PChild`). -/
inductive PChild where
  | run : Run → PChild
  | del : RevAttrs → Run → PChild
  | ins : RevAttrs → List PChild → PChild

/-- A paragraph (`w:p`): its optional paragraph-properties child (`w:pPr`,
opaque), its own XML attributes (opaque; they survive `deepcopy` and are not
children), and its ordered children. -/
structure Para where
  pPr : Option Text
  attrs : Text
  children : List PChild

/-- Python `old_text in t.text` guarded by `if not t.text` — line 127 of the
source: a `w:t` participates only if its text is non-empty, and then matches
if `old_text` occurs in it. -/
def runMatches (old : Text) (r : Run) : Bool :=
  !r.text.isEmpty && occursIn old r.text

mutual
/-- Whether `para.xpath(".//w:t")` finds, inside this child, a text node that
passes the guard on line 127 (non-empty and containing `old`).  `w:delText`
inside `w:del` is not a `w:t`, so `w:del` children never match. -/
def childHasT (old : Text) : PChild → Bool
  | .run r => runMatches old r
  | .del _ _ => false
  | .ins _ cs => childrenHaveT old cs
def childrenHaveT (old : Text) : List PChild → Bool
  | [] => false
  | c :: cs => childHasT old c || childrenHaveT old cs
end

/-- The elements `modify_text_in_doc` (lines 130–171) leaves in place of a
matched run `r`: the original run truncated to the text before the match (kept
only when that text is non-empty, line 136; otherwise the run is removed, line
140), then the `w:del` element wrapping a fresh run whose `w:delText` is
`old`, then the `w:ins` element wrapping a fresh run whose `w:t` is one space
followed by `new`, then a fresh run holding the text after the match (only
when non-empty, line 167).  Both revision elements carry the same change id,
author and timestamp. -/
def spliceRun (old new author ts : Text) (cid : Nat) (r : Run) : List PChild :=
  let b := (cutAt r.text old).1
  let a := (cutAt r.text old).2
  (if b.isEmpty then [] else [PChild.run { r with text := b }]) ++
    [PChild.del ⟨cid, author, ts⟩ ⟨blankRPr, old⟩,
     PChild.ins ⟨cid, author, ts⟩ [PChild.run ⟨blankRPr, ' ' :: new⟩]] ++
    (if a.isEmpty then [] else [PChild.run ⟨blankRPr, a⟩])

mutual
/-- Rewrite of one child once the scan has located the first matching `w:t`
inside it.  For a matching text inside a `w:ins`, `t.getparent().getparent()`
is that `w:ins` element, so the splice happens among its children. -/
def spliceChild (old new author ts : Text) (cid : Nat) : PChild → List PChild
  | .run r =>
    if runMatches old r then spliceRun old new author ts cid r else [PChild.run r]
  | .del a r => [PChild.del a r]
  | .ins a cs => [PChild.ins a (spliceChildren old new author ts cid cs)]
/-- One paragraph-level substitution: the first child containing a matching
`w:t` (in document order, as `para.xpath(".//w:t")` lists them) is rewritten,
every other child is untouched, and the loop breaks (line 172). -/
def spliceChildren (old new author ts : Text) (cid : Nat) : List PChild → List PChild
  | [] => []
  | c :: cs =>
    if childHasT old c then spliceChild old new author ts cid c ++ cs
    else c :: spliceChildren old new author ts cid cs
end

/-- `modify_text_in_doc`'s outer loop over `//w:p`: every paragraph that
contains a matching `w:t` receives one substitution, drawing one fresh id from
`self._id_counter`; the result is the new paragraph list, the state of the
counter, and the ids drawn (in order). -/
def modifyParasGo (old new author ts : Text) (cid : Nat) :
    List Para → List Para × Nat × List Nat
  | [] => ([], cid, [])
  | p :: ps =>
    if childrenHaveT old p.children then
      let rest := modifyParasGo old new author ts (cid + 1) ps
      ({ p with children := spliceChildren old new author ts cid p.children } :: rest.1,
       rest.2.1, cid :: rest.2.2)
    else
      let rest := modifyParasGo old new author ts cid ps
      (p :: rest.1, rest.2.1, rest.2.2)

/-- Whether any paragraph holds a non-empty `w:t`.  With `old_text = ""`,
Python's `"" in t.text` is true for every non-empty text, so the first such
`w:t` reaches `t.text.partition("")` on line 130, which raises
`ValueError: empty separator` — before any mutation has happened. -/
def docHasNonemptyT (ps : List Para) : Bool :=
  ps.any fun p => childrenHaveT [] p.children

/-- `modify_text_in_doc` (lines 113–172).  Arguments beyond the source's
`old_text`, `new_text`, `author`: `ts` is the `datetime.utcnow().isoformat()`
timestamp, `cid` the state of `self._id_counter`, `ps` the paragraphs of
`self.doc_tree`.  Returns the new paragraphs, the new counter state and the
ids drawn, or the `ValueError` Python raises when `old_text` is empty and some
`w:t` is non-empty (the raise precedes any mutation, so the tree is unchanged
in that case). -/
def modify_text_in_doc (old new author ts : Text) (cid : Nat) (ps : List Para) :
    Except String (List Para × Nat × List Nat) :=
  if old.isEmpty && docHasNonemptyT ps then .error "empty separator"
  else .ok (modifyParasGo old new author ts cid ps)

mutual
/-- Ids found by `//w:ins/@w:id | //w:del/@w:id` inside one child. -/
def childIds : PChild → List Nat
  | .run _ => []
  | .del a _ => [a.id]
  | .ins a cs => a.id :: childrenIds cs
def childrenIds : List PChild → List Nat
  | [] => []
  | c :: cs => childIds c ++ childrenIds cs
end

/-- All revision ids in the document, as scanned by
`_highest_existing_change_id` (lines 83–95). -/
def docIds (ps : List Para) : List Nat :=
  (ps.map fun p => childrenIds p.children).flatten

/-- `_highest_existing_change_id`: `max(map(int, ids), default=0)`. -/
def highest_existing_change_id (ps : List Para) : Nat :=
  (docIds ps).foldr max 0

/-- python-docx `para.runs`: the direct `w:r` children of the paragraph
(runs wrapped in `w:ins`/`w:del` are not part of it). -/
def directRuns (cs : List PChild) : List Run :=
  cs.filterMap fun c =>
    match c with
    | .run r => some r
    | _ => none

/-- python-docx `para.text`: concatenation of the direct runs' texts. -/
def paraText (p : Para) : Text :=
  ((directRuns p.children).map Run.text).flatten

/-- The run properties produced by `para.add_run(text)` followed by
`new_run.style = run.style` (lines 232–233, 237–238): a fresh run with no
direct formatting whose character-style reference is copied from `run`. -/
def styledFrom (r : Run) : RPr :=
  ⟨r.rPr.rStyle, []⟩

/-- The runs that replace the matched run in `add_comment_to_paragraph`
(lines 225–244): the original run with its text set to the part before the
match (`run.text = before`, line 231 — the run element and its `w:rPr` stay in
place even when `before` is empty), then the new target run holding exactly
`target`, then — only when the part after the match is non-empty — a run
holding it; the two new runs copy only the original's style reference. -/
def commentFrag (target : Text) (r : Run) : List PChild :=
  let b := (cutAt r.text target).1
  let a := (cutAt r.text target).2
  [PChild.run { r with text := b }, PChild.run ⟨styledFrom r, target⟩] ++
    (if a.isEmpty then [] else [PChild.run ⟨styledFrom r, a⟩])

/-- Same as `commentFrag` but for `new_paragraph=False` (lines 251–252): the
anchor run created by `para.add_run("")` — blank text, no style assignment —
is moved by `target_run._r.addnext(anchor_run._r)` to the position immediately
after the target run (and hence before the after-run). -/
def commentFragAnchor (target : Text) (r : Run) : List PChild :=
  let b := (cutAt r.text target).1
  let a := (cutAt r.text target).2
  [PChild.run { r with text := b }, PChild.run ⟨styledFrom r, target⟩,
   PChild.run ⟨blankRPr, []⟩] ++
    (if a.isEmpty then [] else [PChild.run ⟨styledFrom r, a⟩])

/-- The run-location loop of `add_comment_to_paragraph` (lines 216–223): the
first direct run whose text contains `target` is replaced by `frag` applied to
it; when no direct run contains `target` the paragraph is skipped (`continue`,
line 223). -/
def findRunSplit (target : Text) (frag : Run → List PChild) :
    List PChild → Option (List PChild)
  | [] => none
  | PChild.run r :: cs =>
    if occursIn target r.text then some (frag r ++ cs)
    else (findRunSplit target frag cs).map (PChild.run r :: ·)
  | c :: cs => (findRunSplit target frag cs).map (c :: ·)

/-- `anchor_para.add_run("")` where `anchor_para` is
`para._parent._body._paragraphs[-1]`, the last paragraph of the body
(line 206): the blank anchor run is appended to the last paragraph of the
list. -/
def appendBlankRunLast : List Para → List Para
  | [] => []
  | [q] => [{ q with children := q.children ++ [PChild.run ⟨blankRPr, []⟩] }]
  | q :: qs => q :: appendBlankRunLast qs

/-- The paragraph loop of `add_comment_to_paragraph` (lines 211–261): the
first paragraph whose `para.text` contains `target` and that has a direct run
containing `target` is edited and the loop breaks.  In `new_paragraph` mode
(lines 197–206, 247–249) a copy of the paragraph stripped of all its children
— including `w:pPr`; only the element's own attributes survive — is inserted
as its immediate next sibling, and the blank anchor run is added to the last
paragraph of the body.  Returns the edited body, or `none` when no paragraph
qualifies. -/
def addCommentGo (target : Text) (newPara : Bool) : List Para → Option (List Para)
  | [] => none
  | p :: ps =>
    if occursIn target (paraText p) then
      match findRunSplit target
          (if newPara then commentFrag target else commentFragAnchor target)
          p.children with
      | some cs =>
        if newPara then
          some ({ p with children := cs } ::
            appendBlankRunLast (⟨none, p.attrs, []⟩ :: ps))
        else
          some ({ p with children := cs } :: ps)
      | none => (addCommentGo target newPara ps).map (p :: ·)
    else (addCommentGo target newPara ps).map (p :: ·)

/-- Result of `add_comment_to_paragraph`.  `invalidArg` is the early return on
an empty or whitespace-only target (lines 193–195, a warning is printed and
nothing is touched); `notFound` the `found = False` exit (lines 263–265,
likewise only a print); `ok` carries the edited body that is saved to
`output_path` and the run on which `add_comment` was called — in both modes a
run freshly created by `add_run("")`, so blank and unstyled. -/
inductive CommentOutcome where
  | invalidArg
  | notFound
  | ok (doc : List Para) (anchor : Run)

/-- `add_comment_to_paragraph` (lines 175–274) acting on the document read
from `self.docx_path`.  The comment-relationship part (comments.xml and range
markers written by bayoo-docx `Run.add_comment`) is outside the modelled tree. -/
def add_comment_to_paragraph (target : Text) (newPara : Bool) (ps : List Para) :
    CommentOutcome :=
  if target.all Char.isWhitespace then .invalidArg
  else
    match addCommentGo target newPara ps with
    | some qs => .ok qs ⟨blankRPr, []⟩
    | none => .notFound

/-- The mutable state of a `DocXEditor` object: the document stored in the
file at `self.docx_path` (and, unzipped, in the temp dir), the in-memory
`self.doc_tree`, the state of `self._id_counter`, and the document stored at
`self.output_path` (if written yet). -/
structure Session where
  source : List Para
  doc_tree : List Para
  nextId : Nat
  output : Option (List Para)

/-- `__init__` (lines 25–32): unzip the source, seed the counter at
`_highest_existing_change_id() + 1`, load `document.xml`. -/
def initSession (d : List Para) : Session :=
  ⟨d, d, highest_existing_change_id d + 1, none⟩

/-- One `modify_text_in_doc` call at session level: on success the tree and
counter are updated; on the `ValueError` raise nothing has been mutated.  The
second component records the ids drawn from the counter during the call. -/
def sessionModify (s : Session) (old new author ts : Text) : Session × List Nat :=
  match modify_text_in_doc old new author ts s.nextId s.doc_tree with
  | .ok r => ({ s with doc_tree := r.1, nextId := r.2.1 }, r.2.2)
  | .error _ => (s, [])

/-- One `add_comment_to_paragraph` call at session level.  It operates on the
document re-read from `self.docx_path` (line 208), not on `self.doc_tree`; on
success it saves to `output_path`, rebinds `docx_path` to `output_path`,
re-unzips, reseeds the id counter and reloads `doc_tree` (lines 267–273).  On
`invalidArg`/`notFound` it returns before touching anything. -/
def sessionAddComment (s : Session) (target : Text) (newPara : Bool) : Session :=
  match add_comment_to_paragraph target newPara s.source with
  | .ok qs _ => ⟨qs, qs, highest_existing_change_id qs + 1, some qs⟩
  | _ => s

/-- Arguments of one `modify_text_in_doc` call. -/
structure ModArgs where
  old : Text
  new : Text
  author : Text
  ts : Text

/-- A sequence of `modify_text_in_doc` calls, collecting all ids drawn. -/
def runModifyCalls (s : Session) : List ModArgs → Session × List Nat
  | [] => (s, [])
  | a :: as =>
    let r1 := sessionModify s a.old a.new a.author a.ts
    let r2 := runModifyCalls r1.1 as
    (r2.1, r1.2 ++ r2.2)

mutual
/-- Number of `w:del` elements in a child (at any depth). -/
def countDelCh : PChild → Nat
  | .run _ => 0
  | .del _ _ => 1
  | .ins _ cs => countDelChs cs
def countDelChs : List PChild → Nat
  | [] => 0
  | c :: cs => countDelCh c + countDelChs cs
end

mutual
/-- Number of `w:ins` elements in a child (at any depth). -/
def countInsCh : PChild → Nat
  | .run _ => 0
  | .del _ _ => 0
  | .ins _ cs => 1 + countInsChs cs
def countInsChs : List PChild → Nat
  | [] => 0
  | c :: cs => countInsCh c + countInsChs cs
end

/-- Number of `w:del` elements in a paragraph. -/
def countDelPara (p : Para) : Nat := countDelChs p.children

/-- Number of `w:ins` elements in a paragraph. -/
def countInsPara (p : Para) : Nat := countInsChs p.children

/-- Whether `old` occurs in some `w:t` of some paragraph — the condition under
which `modify_text_in_doc` mutates anything. -/
def docHasMatch (old : Text) (ps : List Para) : Bool :=
  ps.any fun p => childrenHaveT old p.children

/-- The value a caller of `modify_text_in_doc` receives: the Python function
ends without a `return` statement on every path, so it returns `None` whether
or not `old_text` was found; only the raised `ValueError` is observable. -/
def modifyPyReturn (old new author ts : Text) (cid : Nat) (ps : List Para) :
    Except String Unit :=
  (modify_text_in_doc old new author ts cid ps).map fun _ => ()

/-- Number of `w:del` elements in the whole body. -/
def countDelDoc (ps : List Para) : Nat := (ps.map countDelPara).sum

/-- Number of `w:ins` elements in the whole body. -/
def countInsDoc (ps : List Para) : Nat := (ps.map countInsPara).sum

theorem countDelChs_append (xs ys : List PChild) :
    countDelChs (xs ++ ys) = countDelChs xs + countDelChs ys := by
  induction xs with
  | nil => simp [countDelChs]
  | cons c cs ih => simp [countDelChs, ih, Nat.add_assoc]

theorem countInsChs_append (xs ys : List PChild) :
    countInsChs (xs ++ ys) = countInsChs xs + countInsChs ys := by
  induction xs with
  | nil => simp [countInsChs]
  | cons c cs ih => simp [countInsChs, ih, Nat.add_assoc]

theorem countDel_spliceRun (old new author ts : Text) (cid : Nat) (r : Run) :
    countDelChs (spliceRun old new author ts cid r) = 1 := by
  by_cases h1 : (cutAt r.text old).1.isEmpty <;>
    by_cases h2 : (cutAt r.text old).2.isEmpty <;>
      simp [spliceRun, h1, h2, countDelChs_append, countDelChs, countDelCh]

theorem countIns_spliceRun (old new author ts : Text) (cid : Nat) (r : Run) :
    countInsChs (spliceRun old new author ts cid r) = 1 := by
  by_cases h1 : (cutAt r.text old).1.isEmpty <;>
    by_cases h2 : (cutAt r.text old).2.isEmpty <;>
      simp [spliceRun, h1, h2, countInsChs_append, countInsChs, countInsCh]

mutual
theorem countDel_spliceChild (old new author ts : Text) (cid : Nat) :
    ∀ c : PChild, childHasT old c = true →
      countDelChs (spliceChild old new author ts cid c) = countDelCh c + 1
  | .run r, h => by
    rw [childHasT] at h
    simp [spliceChild, h, countDelChs, countDelCh, countDel_spliceRun]
  | .del a r, h => by simp [childHasT] at h
  | .ins a cs, h => by
    rw [childHasT] at h
    have hrec := countDel_spliceChildren old new author ts cid cs h
    simp [spliceChild, countDelChs, countDelCh, hrec]
theorem countDel_spliceChildren (old new author ts : Text) (cid : Nat) :
    ∀ cs : List PChild, childrenHaveT old cs = true →
      countDelChs (spliceChildren old new author ts cid cs) = countDelChs cs + 1
  | [], h => by simp [childrenHaveT] at h
  | c :: cs, h => by
    by_cases hc : childHasT old c = true
    · have hrec := countDel_spliceChild old new author ts cid c hc
      simp only [spliceChildren, hc, if_true, countDelChs_append, countDelChs, hrec]
      omega
    · rw [childrenHaveT] at h
      simp only [Bool.or_eq_true] at h
      have hcs : childrenHaveT old cs = true := by
        rcases h with h | h
        · exact absurd h hc
        · exact h
      have hrec := countDel_spliceChildren old new author ts cid cs hcs
      simp only [spliceChildren, hc, if_false, countDelChs, hrec]
      omega
end

mutual
theorem countIns_spliceChild (old new author ts : Text) (cid : Nat) :
    ∀ c : PChild, childHasT old c = true →
      countInsChs (spliceChild old new author ts cid c) = countInsCh c + 1
  | .run r, h => by
    rw [childHasT] at h
    simp [spliceChild, h, countInsChs, countInsCh, countIns_spliceRun]
  | .del a r, h => by simp [childHasT] at h
  | .ins a cs, h => by
    rw [childHasT] at h
    have hrec := countIns_spliceChildren old new author ts cid cs h
    simp only [spliceChild, countInsChs, countInsCh, hrec]
    omega
theorem countIns_spliceChildren (old new author ts : Text) (cid : Nat) :
    ∀ cs : List PChild, childrenHaveT old cs = true →
      countInsChs (spliceChildren old new author ts cid cs) = countInsChs cs + 1
  | [], h => by simp [childrenHaveT] at h
  | c :: cs, h => by
    by_cases hc : childHasT old c = true
    · have hrec := countIns_spliceChild old new author ts cid c hc
      simp only [spliceChildren, hc, if_true, countInsChs_append, countInsChs, hrec]
      omega
    · rw [childrenHaveT] at h
      simp only [Bool.or_eq_true] at h
      have hcs : childrenHaveT old cs = true := by
        rcases h with h | h
        · exact absurd h hc
        · exact h
      have hrec := countIns_spliceChildren old new author ts cid cs hcs
      simp only [spliceChildren, hc, if_false, countInsChs, hrec]
      omega
end

theorem spliceChildren_nomatch (old new author ts : Text) (cid : Nat) :
    ∀ cs : List PChild, childrenHaveT old cs = false →
      spliceChildren old new author ts cid cs = cs := by
  intro cs
  induction cs with
  | nil => intro _; rfl
  | cons c cs ih =>
    intro h
    rw [childrenHaveT] at h
    simp only [Bool.or_eq_false_iff] at h
    simp [spliceChildren, h.1, ih h.2]

theorem spliceChildren_first_run (old new author ts : Text) (cid : Nat) (r : Run)
    (hr : runMatches old r = true) :
    ∀ pre post : List PChild, (∀ c ∈ pre, childHasT old c = false) →
      spliceChildren old new author ts cid (pre ++ PChild.run r :: post) =
        pre ++ spliceRun old new author ts cid r ++ post := by
  intro pre
  induction pre with
  | nil =>
    intro post _
    have hc : childHasT old (PChild.run r) = true := by rw [childHasT]; exact hr
    simp [spliceChildren, hc, spliceChild, hr]
  | cons c cs ih =>
    intro post hpre
    have h1 : childHasT old c = false := hpre c (by simp)
    have h2 : ∀ x ∈ cs, childHasT old x = false := fun x hx => hpre x (by simp [hx])
    simp [spliceChildren, h1, ih post h2]

theorem modifyParasGo_nomatch (old new author ts : Text) :
    ∀ (ps : List Para) (cid : Nat),
      (∀ p ∈ ps, childrenHaveT old p.children = false) →
      modifyParasGo old new author ts cid ps = (ps, cid, []) := by
  intro ps
  induction ps with
  | nil => intro cid _; rfl
  | cons p ps ih =>
    intro cid h
    have h1 : childrenHaveT old p.children = false := h p (by simp)
    have h2 : ∀ q ∈ ps, childrenHaveT old q.children = false :=
      fun q hq => h q (by simp [hq])
    simp [modifyParasGo, h1, ih cid h2]

theorem modifyParasGo_forall2 (old new author ts : Text) :
    ∀ (ps : List Para) (cid : Nat),
      List.Forall₂ (fun p q =>
          (childrenHaveT old p.children = false → q = p) ∧
          (childrenHaveT old p.children = true →
            countDelPara q = countDelPara p + 1 ∧
            countInsPara q = countInsPara p + 1))
        ps (modifyParasGo old new author ts cid ps).1 := by
  intro ps
  induction ps with
  | nil => intro cid; simp [modifyParasGo]
  | cons p ps ih =>
    intro cid
    by_cases hp : childrenHaveT old p.children = true
    · simp only [modifyParasGo, hp, if_true]
      refine List.Forall₂.cons ⟨?_, ?_⟩ (ih (cid + 1))
      · intro hf; rw [hf] at hp; cases hp
      · intro _
        constructor
        · exact countDel_spliceChildren old new author ts cid p.children hp
        · exact countIns_spliceChildren old new author ts cid p.children hp
    · have hp' : childrenHaveT old p.children = false := by
        simpa using hp
      simp only [modifyParasGo, hp', if_false]
      refine List.Forall₂.cons ⟨fun _ => rfl, fun ht => ?_⟩ (ih cid)
      rw [ht] at hp'; cases hp'

theorem modifyParasGo_ids (old new author ts : Text) :
    ∀ (ps : List Para) (cid : Nat),
      cid ≤ (modifyParasGo old new author ts cid ps).2.1 ∧
      (modifyParasGo old new author ts cid ps).2.2.Pairwise (· < ·) ∧
      ∀ i ∈ (modifyParasGo old new author ts cid ps).2.2,
        cid ≤ i ∧ i < (modifyParasGo old new author ts cid ps).2.1 := by
  intro ps
  induction ps with
  | nil => intro cid; simp [modifyParasGo]
  | cons p ps ih =>
    intro cid
    by_cases hp : childrenHaveT old p.children = true
    · obtain ⟨ih1, ih2, ih3⟩ := ih (cid + 1)
      simp only [modifyParasGo, hp, if_true]
      refine ⟨by omega, ?_, ?_⟩
      · refine List.Pairwise.cons ?_ ih2
        intro i hi
        have := ih3 i hi
        omega
      · intro i hi
        simp only [List.mem_cons] at hi
        rcases hi with rfl | hi
        · constructor
          · omega
          · omega
        · have := ih3 i hi
          omega
    · have hp' : childrenHaveT old p.children = false := by simpa using hp
      obtain ⟨ih1, ih2, ih3⟩ := ih cid
      simp only [modifyParasGo, hp', if_false]
      exact ⟨ih1, ih2, ih3⟩

theorem modify_ids (old new author ts : Text) (cid : Nat) (ps qs : List Para)
    (cid' : Nat) (ids : List Nat)
    (h : modify_text_in_doc old new author ts cid ps = .ok (qs, cid', ids)) :
    cid ≤ cid' ∧ ids.Pairwise (· < ·) ∧ ∀ i ∈ ids, cid ≤ i ∧ i < cid' := by
  rw [modify_text_in_doc] at h
  by_cases hcond : (old.isEmpty && docHasNonemptyT ps) = true
  · rw [if_pos hcond] at h; cases h
  · rw [if_neg hcond] at h
    simp only [Except.ok.injEq] at h
    obtain ⟨h1, h2, h3⟩ := modifyParasGo_ids old new author ts ps cid
    rw [h] at h1 h2 h3
    exact ⟨h1, h2, h3⟩

theorem sessionModify_ids (s : Session) (old new author ts : Text) :
    s.nextId ≤ (sessionModify s old new author ts).1.nextId ∧
    (sessionModify s old new author ts).2.Pairwise (· < ·) ∧
    ∀ i ∈ (sessionModify s old new author ts).2,
      s.nextId ≤ i ∧ i < (sessionModify s old new author ts).1.nextId := by
  cases hm : modify_text_in_doc old new author ts s.nextId s.doc_tree with
  | error e => simp [sessionModify, hm]
  | ok r =>
    obtain ⟨qs, cid', ids⟩ := r
    obtain ⟨h1, h2, h3⟩ := modify_ids old new author ts s.nextId s.doc_tree qs cid' ids hm
    simp only [sessionModify, hm]
    exact ⟨h1, h2, h3⟩

theorem runModifyCalls_ids : ∀ (as : List ModArgs) (s : Session),
    s.nextId ≤ (runModifyCalls s as).1.nextId ∧
    (runModifyCalls s as).2.Pairwise (· < ·) ∧
    ∀ i ∈ (runModifyCalls s as).2,
      s.nextId ≤ i ∧ i < (runModifyCalls s as).1.nextId := by
  intro as
  induction as with
  | nil => intro s; simp [runModifyCalls]
  | cons a as ih =>
    intro s
    obtain ⟨m1, m2, m3⟩ := sessionModify_ids s a.old a.new a.author a.ts
    obtain ⟨r1, r2, r3⟩ := ih (sessionModify s a.old a.new a.author a.ts).1
    simp only [runModifyCalls]
    refine ⟨by omega, ?_, ?_⟩
    · rw [List.pairwise_append]
      refine ⟨m2, r2, ?_⟩
      intro x hx y hy
      have hx2 := m3 x hx
      have hy2 := r3 y hy
      omega
    · intro i hi
      rw [List.mem_append] at hi
      rcases hi with hi | hi
      · have := m3 i hi
        constructor
        · omega
        · omega
      · have := r3 i hi
        constructor
        · omega
        · omega

/-- Whether a paragraph child is a direct run whose text contains `target` —
what the run-location loop on lines 217–220 tests. -/
def directRunHas (target : Text) : PChild → Bool
  | .run r => occursIn target r.text
  | _ => false

theorem findRunSplit_first (target : Text) (frag : Run → List PChild) (r : Run)
    (hr : occursIn target r.text = true) :
    ∀ pre post : List PChild, (∀ c ∈ pre, directRunHas target c = false) →
      findRunSplit target frag (pre ++ PChild.run r :: post) =
        some (pre ++ frag r ++ post) := by
  intro pre
  induction pre with
  | nil =>
    intro post _
    simp [findRunSplit, hr]
  | cons c cs ih =>
    intro post hpre
    have h1 : directRunHas target c = false := hpre c (by simp)
    have h2 : ∀ x ∈ cs, directRunHas target x = false :=
      fun x hx => hpre x (by simp [hx])
    cases c with
    | run q =>
      have hq : occursIn target q.text = false := by simpa [directRunHas] using h1
      simp [findRunSplit, hq, ih post h2]
    | del a q => simp [findRunSplit, ih post h2]
    | ins a cs' => simp [findRunSplit, ih post h2]

theorem directRuns_append (xs ys : List PChild) :
    directRuns (xs ++ ys) = directRuns xs ++ directRuns ys := by
  simp [directRuns, List.filterMap_append]

theorem directRuns_cons_run (r : Run) (cs : List PChild) :
    directRuns (PChild.run r :: cs) = r :: directRuns cs := rfl

theorem paraText_decomp (pp : Option Text) (ats : Text) (pre post : List PChild) (r : Run) :
    paraText ⟨pp, ats, pre ++ PChild.run r :: post⟩ =
      ((directRuns pre).map Run.text).flatten ++
        (r.text ++ ((directRuns post).map Run.text).flatten) := by
  simp [paraText, directRuns_append, directRuns_cons_run]

theorem paraText_occurs (target : Text) (pp : Option Text) (ats : Text)
    (pre post : List PChild) (r : Run) (hr : occursIn target r.text = true) :
    occursIn target (paraText ⟨pp, ats, pre ++ PChild.run r :: post⟩) = true := by
  rw [paraText_decomp]
  exact occursIn_append_right target _ _
    (occursIn_append_left target _ _ hr)

theorem addCommentGo_append (target : Text) (mode : Bool) :
    ∀ (ps1 rest : List Para), (∀ q ∈ ps1, occursIn target (paraText q) = false) →
      addCommentGo target mode (ps1 ++ rest) =
        (addCommentGo target mode rest).map (ps1 ++ ·) := by
  intro ps1
  induction ps1 with
  | nil =>
    intro rest _
    rw [List.nil_append]
    cases addCommentGo target mode rest <;> simp
  | cons q qs ih =>
    intro rest h
    have h1 : occursIn target (paraText q) = false := h q (by simp)
    have h2 : ∀ x ∈ qs, occursIn target (paraText x) = false :=
      fun x hx => h x (by simp [hx])
    have hrec := ih rest h2
    simp only [List.cons_append, addCommentGo, h1, Bool.false_eq_true, if_false]
    rw [show qs.append rest = qs ++ rest from rfl, hrec]
    cases addCommentGo target mode rest <;> simp

theorem appendBlankRunLast_eq : ∀ (qs : List Para) (q : Para),
    appendBlankRunLast (qs ++ [q]) =
      qs ++ [{ q with children := q.children ++ [PChild.run ⟨blankRPr, []⟩] }] := by
  intro qs
  induction qs with
  | nil => intro q; rfl
  | cons a qs ih =>
    intro q
    cases qs with
    | nil => simp [appendBlankRunLast]
    | cons b bs =>
      have h := ih q
      simp only [List.cons_append] at h ⊢
      simp only [appendBlankRunLast]
      rw [h]

/-- The per-paragraph contract of one `modify_text_in_doc` call: a paragraph
without a matching `w:t` is untouched; a paragraph with one gains exactly one
`w:del` and one `w:ins` element. -/
def oneSubstPerPara (old : Text) (p q : Para) : Prop :=
  (childrenHaveT old p.children = false → q = p) ∧
  (childrenHaveT old p.children = true →
    countDelPara q = countDelPara p + 1 ∧ countInsPara q = countInsPara p + 1)

/-- C1, counterexample.  On a document with two paragraphs each containing
"X", `modify_text_in_doc("X", "Y")` rewrites **both** paragraphs (the `break`
on line 172 only leaves the inner `w:t` loop; the outer paragraph loop
continues), drawing two change ids.  The claim says every occurrence outside
the first match — "including occurrences in later paragraphs" — is left
untouched, but the second paragraph ends up with a deletion node (`w:del`
count 1) instead of its original untouched content (`w:del` count 0). -/
theorem c1_counterexample :
    modify_text_in_doc ['X'] ['Y'] ['F'] ['t'] 1
        [⟨none, [], [PChild.run ⟨blankRPr, ['X']⟩]⟩,
         ⟨none, [], [PChild.run ⟨blankRPr, ['X']⟩]⟩] =
      .ok ([⟨none, [], [PChild.del ⟨1, ['F'], ['t']⟩ ⟨blankRPr, ['X']⟩,
                        PChild.ins ⟨1, ['F'], ['t']⟩ [PChild.run ⟨blankRPr, [' ', 'Y']⟩]]⟩,
            ⟨none, [], [PChild.del ⟨2, ['F'], ['t']⟩ ⟨blankRPr, ['X']⟩,
                        PChild.ins ⟨2, ['F'], ['t']⟩ [PChild.run ⟨blankRPr, [' ', 'Y']⟩]]⟩],
           3, [1, 2]) ∧
    countDelPara ⟨none, [], [PChild.del ⟨2, ['F'], ['t']⟩ ⟨blankRPr, ['X']⟩,
                             PChild.ins ⟨2, ['F'], ['t']⟩
                               [PChild.run ⟨blankRPr, [' ', 'Y']⟩]]⟩ = 1 ∧
    countDelPara ⟨none, [], [PChild.run ⟨blankRPr, ['X']⟩]⟩ = 0 :=
  ⟨rfl, rfl, rfl⟩

/-- C1, amended: a call with non-empty `old_text` succeeds and substitutes
once in **every** paragraph that contains `old_text` in a single `w:t` node —
one substitution per such paragraph per call, not one per document; paragraphs
without a match are left untouched. -/
theorem c1_amended_thm (old new author ts : Text) (cid : Nat) (ps : List Para)
    (hold : old ≠ []) :
    modify_text_in_doc old new author ts cid ps =
      .ok (modifyParasGo old new author ts cid ps) ∧
    List.Forall₂ (oneSubstPerPara old) ps (modifyParasGo old new author ts cid ps).1 := by
  constructor
  · have hne : old.isEmpty = false := by
      cases old with
      | nil => exact absurd rfl hold
      | cons _ _ => rfl
    rw [modify_text_in_doc]
    simp [hne]
  · exact modifyParasGo_forall2 old new author ts ps cid

/-- Witness for `c1_amended_thm` at a concrete input. -/
theorem c1_witness :
    (['X'] : Text) ≠ [] ∧
    (modify_text_in_doc ['X'] ['Y'] [] [] 1 [⟨none, [], [PChild.run ⟨blankRPr, ['X']⟩]⟩] =
       .ok (modifyParasGo ['X'] ['Y'] [] [] 1
             [⟨none, [], [PChild.run ⟨blankRPr, ['X']⟩]⟩]) ∧
     List.Forall₂ (oneSubstPerPara ['X'])
       [⟨none, [], [PChild.run ⟨blankRPr, ['X']⟩]⟩]
       (modifyParasGo ['X'] ['Y'] [] [] 1
         [⟨none, [], [PChild.run ⟨blankRPr, ['X']⟩]⟩]).1) :=
  ⟨by simp, c1_amended_thm ['X'] ['Y'] [] [] 1
    [⟨none, [], [PChild.run ⟨blankRPr, ['X']⟩]⟩] (by simp)⟩

/-- C9, counterexample to the reporting clause.  `modify_text_in_doc` ends
without a `return` on every path, so the caller receives `None` whether the
old text was found (second call: it was, and the tree was mutated) or absent
(first call): absence is not reported to the caller as any kind of not-found
outcome.  (The no-mutation half of C9 is `c9_amended_thm`.) -/
theorem c9_counterexample :
    modifyPyReturn ['X'] ['Y'] [] [] 1
        [⟨none, [], [PChild.run ⟨blankRPr, ['a']⟩]⟩] = .ok () ∧
    modifyPyReturn ['X'] ['Y'] [] [] 1
        [⟨none, [], [PChild.run ⟨blankRPr, ['X']⟩]⟩] = .ok () ∧
    docHasMatch ['X'] [⟨none, [], [PChild.run ⟨blankRPr, ['a']⟩]⟩] = false ∧
    docHasMatch ['X'] [⟨none, [], [PChild.run ⟨blankRPr, ['X']⟩]⟩] = true :=
  ⟨rfl, rfl, rfl, rfl⟩

/-- C9, amended: when `old` occurs in no `w:t` of any paragraph the call
returns normally and performs no mutation — the resulting tree is the input
tree (structural equality) and the id counter has not advanced; but no
not-found outcome is returned (see `c9_counterexample`). -/
theorem c9_amended_thm (old new author ts : Text) (cid : Nat) (ps : List Para)
    (h : docHasMatch old ps = false) :
    modify_text_in_doc old new author ts cid ps = .ok (ps, cid, []) := by
  have hall : ∀ p ∈ ps, childrenHaveT old p.children = false := by
    rw [docHasMatch, List.any_eq_false] at h
    intro p hp
    simpa using h p hp
  have hgo := modifyParasGo_nomatch old new author ts ps cid hall
  have hcond : (old.isEmpty && docHasNonemptyT ps) = false := by
    cases old with
    | nil =>
      have hne : docHasNonemptyT ps = false := by
        rw [docHasNonemptyT, List.any_eq_false]
        intro p hp
        simpa using hall p hp
      simp [hne]
    | cons c cs => simp [List.isEmpty]
  rw [modify_text_in_doc, hcond]
  simp [hgo]

/-- Witness for `c9_amended_thm` at a concrete input. -/
theorem c9_witness :
    docHasMatch ['X'] [⟨none, [], [PChild.run ⟨blankRPr, ['a']⟩]⟩] = false ∧
    modify_text_in_doc ['X'] ['Y'] [] [] 1
        [⟨none, [], [PChild.run ⟨blankRPr, ['a']⟩]⟩] =
      .ok ([⟨none, [], [PChild.run ⟨blankRPr, ['a']⟩]⟩], 1, []) :=
  ⟨rfl, c9_amended_thm ['X'] ['Y'] [] [] 1
    [⟨none, [], [PChild.run ⟨blankRPr, ['a']⟩]⟩] rfl⟩

/-- C5: across any sequence of `modify_text_in_doc` calls in one session
(initialised from document `d`), the emitted change ids are strictly
increasing in emission order (hence pairwise distinct), and every one is
strictly greater than the highest revision id present when the session began
(`_highest_existing_change_id`, zero when no revision node exists), because
`__init__` seeds `count(...)` at that maximum plus one. -/
theorem c5_id_allocation (d : List Para) (calls : List ModArgs) :
    (runModifyCalls (initSession d) calls).2.Pairwise (· < ·) ∧
    (runModifyCalls (initSession d) calls).2.Pairwise (· ≠ ·) ∧
    ∀ i ∈ (runModifyCalls (initSession d) calls).2,
      highest_existing_change_id d < i := by
  obtain ⟨h1, h2, h3⟩ := runModifyCalls_ids calls (initSession d)
  refine ⟨h2, h2.imp (fun hlt => Nat.ne_of_lt hlt), ?_⟩
  intro i hi
  have hb := h3 i hi
  have hinit : (initSession d).nextId = highest_existing_change_id d + 1 := rfl
  omega

/-- C8, counterexample.  A whitespace-only `old_text` (here a single space) is
**not** rejected by `modify_text_in_doc`: the call succeeds and mutates the
document (a `w:del` element appears where there was none), while the claim
demands an `InvalidArgument` failure with no mutation for whitespace-only old
text. -/
theorem c8_counterexample :
    modify_text_in_doc [' '] ['Y'] [] [] 1
        [⟨none, [], [PChild.run ⟨blankRPr, [' ', 'x']⟩]⟩] =
      .ok ([⟨none, [], [PChild.del ⟨1, [], []⟩ ⟨blankRPr, [' ']⟩,
                        PChild.ins ⟨1, [], []⟩ [PChild.run ⟨blankRPr, [' ', 'Y']⟩],
                        PChild.run ⟨blankRPr, ['x']⟩]⟩], 2, [1]) ∧
    countDelDoc [⟨none, [], [PChild.run ⟨blankRPr, [' ', 'x']⟩]⟩] = 0 ∧
    countDelDoc [⟨none, [], [PChild.del ⟨1, [], []⟩ ⟨blankRPr, [' ']⟩,
                             PChild.ins ⟨1, [], []⟩ [PChild.run ⟨blankRPr, [' ', 'Y']⟩],
                             PChild.run ⟨blankRPr, ['x']⟩]⟩] = 1 :=
  ⟨rfl, rfl, rfl⟩

/-- C8, amended.  `add_comment_to_paragraph` does reject an empty or
whitespace-only target — a warning is printed, nothing is mutated, and the
session state is untouched and usable.  `modify_text_in_doc` has no such
guard: an **empty** `old_text` raises `ValueError: empty separator` from
`partition` as soon as the document has any non-empty `w:t` (before any
mutation, so the session state survives unchanged), and silently does nothing
when it has none; a **whitespace-only** `old_text` is processed like any other
text (see `c8_counterexample`). -/
theorem c8_amended_thm :
    (∀ (target : Text) (mode : Bool) (ps : List Para),
        target.all Char.isWhitespace = true →
        add_comment_to_paragraph target mode ps = .invalidArg) ∧
    (∀ (s : Session) (target : Text) (mode : Bool),
        target.all Char.isWhitespace = true →
        sessionAddComment s target mode = s) ∧
    (∀ (new author ts : Text) (cid : Nat) (ps : List Para),
        docHasNonemptyT ps = true →
        modify_text_in_doc [] new author ts cid ps = .error "empty separator") ∧
    (∀ (new author ts : Text) (cid : Nat) (ps : List Para),
        docHasNonemptyT ps = false →
        modify_text_in_doc [] new author ts cid ps = .ok (ps, cid, [])) ∧
    (∀ (s : Session) (new author ts : Text),
        (sessionModify s [] new author ts).1.doc_tree = s.doc_tree) := by
  have hinv : ∀ (target : Text) (mode : Bool) (ps : List Para),
      target.all Char.isWhitespace = true →
      add_comment_to_paragraph target mode ps = .invalidArg := by
    intro target mode ps h
    rw [add_comment_to_paragraph, if_pos h]
  have hok : ∀ (new author ts : Text) (cid : Nat) (ps : List Para),
      docHasNonemptyT ps = false →
      modify_text_in_doc [] new author ts cid ps = .ok (ps, cid, []) := by
    intro new author ts cid ps h
    have hall : ∀ p ∈ ps, childrenHaveT [] p.children = false := by
      rw [docHasNonemptyT, List.any_eq_false] at h
      intro p hp
      simpa using h p hp
    rw [modify_text_in_doc]
    simp [h, modifyParasGo_nomatch [] new author ts ps cid hall]
  refine ⟨hinv, ?_, ?_, hok, ?_⟩
  · intro s target mode h
    rw [sessionAddComment, hinv target mode s.source h]
  · intro new author ts cid ps h
    rw [modify_text_in_doc]
    simp [h, List.isEmpty]
  · intro s new author ts
    rw [sessionModify]
    cases hd : docHasNonemptyT s.doc_tree with
    | true =>
      have : modify_text_in_doc [] new author ts s.nextId s.doc_tree =
          .error "empty separator" := by
        rw [modify_text_in_doc]
        simp [hd, List.isEmpty]
      rw [this]
    | false =>
      rw [hok new author ts s.nextId s.doc_tree hd]

/-- Witness for `c8_amended_thm` at concrete inputs. -/
theorem c8_witness :
    add_comment_to_paragraph [' ', '\t'] false
        [⟨none, [], [PChild.run ⟨blankRPr, [' ']⟩]⟩] = .invalidArg ∧
    modify_text_in_doc [] ['Y'] [] [] 1
        [⟨none, [], [PChild.run ⟨blankRPr, ['a']⟩]⟩] = .error "empty separator" :=
  ⟨c8_amended_thm.1 [' ', '\t'] false
      [⟨none, [], [PChild.run ⟨blankRPr, [' ']⟩]⟩] (by decide),
   c8_amended_thm.2.2.1 ['Y'] [] [] 1
      [⟨none, [], [PChild.run ⟨blankRPr, ['a']⟩]⟩] rfl⟩

theorem childrenHaveT_append (old : Text) (xs ys : List PChild) :
    childrenHaveT old (xs ++ ys) =
      (childrenHaveT old xs || childrenHaveT old ys) := by
  induction xs with
  | nil => simp [childrenHaveT]
  | cons c cs ih => simp [childrenHaveT, ih, Bool.or_assoc]

/-- C2: when the first matching `w:t` of a paragraph is the run `r`
(everything before it contains no match) and `r`'s text splits at the first
occurrence of `old` into `before`/`after`, the substitution leaves, exactly
where the match stood: the truncated original run (only if `before` is
non-empty), then a `w:del` node wrapping a run whose deleted text is exactly
`old` (no trimming), then a `w:ins` node wrapping a run whose text is one
literal space followed by `new`, then a run with `after` (only if non-empty) —
both revision nodes carrying the same newly allocated id `cid`, the
caller-supplied author and the timestamp; and `before ++ old ++ after`
reconstructs the run's original text.  The last conjunct lifts this to a
whole `modify_text_in_doc` call. -/
theorem c2_substitution_shape (old new author ts : Text) (cid : Nat)
    (pre post : List PChild) (r : Run)
    (hold : old ≠ [])
    (hpre : ∀ c ∈ pre, childHasT old c = false)
    (hr : runMatches old r = true) :
    spliceChildren old new author ts cid (pre ++ PChild.run r :: post) =
      pre ++
        ((if (cutAt r.text old).1.isEmpty then []
          else [PChild.run { r with text := (cutAt r.text old).1 }]) ++
         [PChild.del ⟨cid, author, ts⟩ ⟨blankRPr, old⟩,
          PChild.ins ⟨cid, author, ts⟩ [PChild.run ⟨blankRPr, ' ' :: new⟩]] ++
         (if (cutAt r.text old).2.isEmpty then []
          else [PChild.run ⟨blankRPr, (cutAt r.text old).2⟩])) ++ post ∧
    (cutAt r.text old).1 ++ old ++ (cutAt r.text old).2 = r.text ∧
    ∀ (pp : Option Text) (ats : Text),
      modify_text_in_doc old new author ts cid
          [⟨pp, ats, pre ++ PChild.run r :: post⟩] =
        .ok ([⟨pp, ats,
               spliceChildren old new author ts cid (pre ++ PChild.run r :: post)⟩],
             cid + 1, [cid]) := by
  have hocc : occursIn old r.text = true := by
    rw [runMatches, Bool.and_eq_true] at hr
    exact hr.2
  have hsplice := spliceChildren_first_run old new author ts cid r hr pre post hpre
  refine ⟨?_, cutAt_spec old r.text hocc, ?_⟩
  · rw [hsplice]
    rfl
  · intro pp ats
    have hne : old.isEmpty = false := by
      cases old with
      | nil => exact absurd rfl hold
      | cons _ _ => rfl
    have hmatch : childrenHaveT old (pre ++ PChild.run r :: post) = true := by
      rw [childrenHaveT_append]
      have : childHasT old (PChild.run r) = true := by rw [childHasT]; exact hr
      simp [childrenHaveT, this]
    rw [modify_text_in_doc]
    simp only [hne, Bool.false_and, Bool.false_eq_true, if_false]
    simp [modifyParasGo, hmatch]

/-- Witness for `c2_substitution_shape` at a concrete input: paragraph
"aXb", old "X", new "Y". -/
theorem c2_witness :
    spliceChildren ['X'] ['Y'] ['F'] ['t'] 5
        [PChild.run ⟨blankRPr, ['a', 'X', 'b']⟩] =
      [] ++
        ((if (cutAt ['a', 'X', 'b'] ['X']).1.isEmpty then []
          else [PChild.run { rPr := blankRPr, text := (cutAt ['a', 'X', 'b'] ['X']).1 }]) ++
         [PChild.del ⟨5, ['F'], ['t']⟩ ⟨blankRPr, ['X']⟩,
          PChild.ins ⟨5, ['F'], ['t']⟩ [PChild.run ⟨blankRPr, ' ' :: ['Y']⟩]] ++
         (if (cutAt ['a', 'X', 'b'] ['X']).2.isEmpty then []
          else [PChild.run ⟨blankRPr, (cutAt ['a', 'X', 'b'] ['X']).2⟩])) ++ [] ∧
    (cutAt ['a', 'X', 'b'] ['X']).1 ++ ['X'] ++ (cutAt ['a', 'X', 'b'] ['X']).2 =
      ['a', 'X', 'b'] ∧
    modify_text_in_doc ['X'] ['Y'] ['F'] ['t'] 5
        [⟨none, [], [PChild.run ⟨blankRPr, ['a', 'X', 'b']⟩]⟩] =
      .ok ([⟨none, [],
             spliceChildren ['X'] ['Y'] ['F'] ['t'] 5
               [PChild.run ⟨blankRPr, ['a', 'X', 'b']⟩]⟩], 5 + 1, [5]) := by
  have h := c2_substitution_shape ['X'] ['Y'] ['F'] ['t'] 5 [] []
    ⟨blankRPr, ['a', 'X', 'b']⟩ (by simp) (by simp) (by decide)
  exact ⟨h.1, h.2.1, h.2.2 none []⟩

/-- C3, counterexample to the formatting clause.  Splitting the run "XY"
(which carries a direct-formatting element, e.g. bold) at target "X": the
first produced run is the original element and keeps its properties, but the
new target and after runs are built by `add_run` + `style` assignment and
carry only the copied style reference — their properties `⟨none, []⟩` differ
from the original's `⟨none, [['b']]⟩`, so not all produced runs carry the
original run's formatting-properties unchanged. -/
theorem c3_counterexample :
    commentFrag ['X'] ⟨⟨none, [['b']]⟩, ['X', 'Y']⟩ =
      [PChild.run ⟨⟨none, [['b']]⟩, []⟩,
       PChild.run ⟨⟨none, []⟩, ['X']⟩,
       PChild.run ⟨⟨none, []⟩, ['Y']⟩] ∧
    (⟨none, []⟩ : RPr) ≠ ⟨none, [['b']]⟩ :=
  ⟨rfl, by decide⟩

/-- C3, amended: the split produces, in place of the original run, the
original element truncated to `before` (all its formatting kept), a new run
holding exactly `target`, and — when `after` is non-empty — a new run holding
`after`; the two new runs receive only the original's character-style
reference (`run.style`), not its direct formatting.  The concatenated text of
the produced runs equals the original run's text. -/
theorem c3_amended_thm (target : Text) (r : Run)
    (h : occursIn target r.text = true) :
    commentFrag target r =
      [PChild.run { r with text := (cutAt r.text target).1 },
       PChild.run ⟨⟨r.rPr.rStyle, []⟩, target⟩] ++
      (if (cutAt r.text target).2.isEmpty then []
       else [PChild.run ⟨⟨r.rPr.rStyle, []⟩, (cutAt r.text target).2⟩]) ∧
    (cutAt r.text target).1 ++ target ++ (cutAt r.text target).2 = r.text ∧
    ((directRuns (commentFrag target r)).map Run.text).flatten = r.text := by
  refine ⟨rfl, cutAt_spec target r.text h, ?_⟩
  have hspec := cutAt_spec target r.text h
  by_cases ha : (cutAt r.text target).2.isEmpty
  · have ha' : (cutAt r.text target).2 = [] := by
      simpa [List.isEmpty_iff] using ha
    rw [ha'] at hspec
    simp only [commentFrag, ha', List.isEmpty_nil, if_true, List.append_nil]
    rw [directRuns_cons_run, directRuns_cons_run]
    simpa [directRuns] using hspec
  · have ha2 : (cutAt r.text target).2.isEmpty = false := by simpa using ha
    simp only [commentFrag, ha2, Bool.false_eq_true, if_false]
    simp only [List.cons_append, List.nil_append]
    rw [directRuns_cons_run, directRuns_cons_run, directRuns_cons_run]
    simpa [directRuns, List.append_assoc] using hspec

/-- Witness for `c3_amended_thm` at a concrete input: run "aXb", target "X". -/
theorem c3_witness :
    occursIn ['X'] ['a', 'X', 'b'] = true ∧
    (commentFrag ['X'] ⟨blankRPr, ['a', 'X', 'b']⟩ =
       [PChild.run { rPr := blankRPr, text := (cutAt ['a', 'X', 'b'] ['X']).1 },
        PChild.run ⟨⟨blankRPr.rStyle, []⟩, ['X']⟩] ++
       (if (cutAt ['a', 'X', 'b'] ['X']).2.isEmpty then []
        else [PChild.run ⟨⟨blankRPr.rStyle, []⟩, (cutAt ['a', 'X', 'b'] ['X']).2⟩]) ∧
     (cutAt ['a', 'X', 'b'] ['X']).1 ++ ['X'] ++ (cutAt ['a', 'X', 'b'] ['X']).2 =
       ['a', 'X', 'b'] ∧
     ((directRuns (commentFrag ['X'] ⟨blankRPr, ['a', 'X', 'b']⟩)).map Run.text).flatten =
       ['a', 'X', 'b']) :=
  ⟨by decide, c3_amended_thm ['X'] ⟨blankRPr, ['a', 'X', 'b']⟩ (by decide)⟩

/-- C4, counterexample.  When the run's text equals the target exactly, the
code does **not** leave the original run as the target run with no siblings:
`run.text = before` empties the original run (which stays in the paragraph)
and a new target run is always created, so the split yields two runs, one of
which is empty. -/
theorem c4_counterexample :
    commentFrag ['X'] ⟨⟨none, []⟩, ['X']⟩ =
      [PChild.run ⟨⟨none, []⟩, []⟩, PChild.run ⟨⟨none, []⟩, ['X']⟩] ∧
    (commentFrag ['X'] ⟨⟨none, []⟩, ['X']⟩).length = 2 ∧
    directRuns (commentFrag ['X'] ⟨⟨none, []⟩, ['X']⟩) ≠ [⟨⟨none, []⟩, ['X']⟩] ∧
    (directRuns (commentFrag ['X'] ⟨⟨none, []⟩, ['X']⟩)).any
        (fun q => q.text.isEmpty) = true :=
  ⟨rfl, rfl, by decide, rfl⟩

/-- C4, amended: when `before` and `after` are both empty the original run
remains in place with its text cleared, and a new run holding the target is
inserted immediately after it — an empty run is created, and no after-run. -/
theorem c4_amended_thm (target : Text) (r : Run) (h : r.text = target) :
    commentFrag target r =
      [PChild.run { r with text := [] },
       PChild.run ⟨⟨r.rPr.rStyle, []⟩, target⟩] := by
  have hc : cutAt r.text target = ([], []) := by
    rw [h]; exact cutAt_self target
  simp [commentFrag, hc, styledFrom]

/-- Witness for `c4_amended_thm` at a concrete input: a styled, bold run whose
whole text is the target. -/
theorem c4_witness :
    (⟨⟨some ['s'], [['b']]⟩, ['X']⟩ : Run).text = ['X'] ∧
    commentFrag ['X'] ⟨⟨some ['s'], [['b']]⟩, ['X']⟩ =
      [PChild.run ⟨⟨some ['s'], [['b']]⟩, []⟩,
       PChild.run ⟨⟨some ['s'], []⟩, ['X']⟩] :=
  ⟨rfl, c4_amended_thm ['X'] ⟨⟨some ['s'], [['b']]⟩, ['X']⟩ rfl⟩

/-- C6, counterexample to the inheritance clause.  Anchoring a comment in the
same paragraph next to a target run that carries a character style: the
anchor run created by `para.add_run("")` (line 251) is never given the target
run's style — its properties are the blank `⟨none, []⟩` while the target run
carries `⟨some "s", []⟩` — so the anchor does not inherit the target run's
formatting. -/
theorem c6_counterexample :
    add_comment_to_paragraph ['X'] false
        [⟨none, [], [PChild.run ⟨⟨some ['s'], []⟩, ['X']⟩]⟩] =
      .ok [⟨none, [],
            [PChild.run ⟨⟨some ['s'], []⟩, []⟩,
             PChild.run ⟨⟨some ['s'], []⟩, ['X']⟩,
             PChild.run ⟨blankRPr, []⟩]⟩] ⟨blankRPr, []⟩ ∧
    blankRPr ≠ (⟨some ['s'], []⟩ : RPr) :=
  ⟨rfl, by decide⟩

/-- C6, amended: in same-paragraph mode exactly one new run is created for the
anchor; it has zero-length text, sits immediately after the isolated target
run (before the after-run, if any), and is **unstyled** (`add_run("")` with no
style assignment) rather than inheriting the target run's formatting.  In
both modes the run handed to `add_comment` has zero-length text and blank
properties. -/
theorem c6_amended_thm (target : Text) (ps1 ps2 : List Para)
    (pp : Option Text) (ats : Text) (pre post : List PChild) (r : Run)
    (hws : target.all Char.isWhitespace = false)
    (hps1 : ∀ q ∈ ps1, occursIn target (paraText q) = false)
    (hpre : ∀ c ∈ pre, directRunHas target c = false)
    (hr : occursIn target r.text = true) :
    add_comment_to_paragraph target false
        (ps1 ++ ⟨pp, ats, pre ++ PChild.run r :: post⟩ :: ps2) =
      .ok (ps1 ++ ⟨pp, ats,
          pre ++ ([PChild.run { r with text := (cutAt r.text target).1 },
                   PChild.run ⟨⟨r.rPr.rStyle, []⟩, target⟩,
                   PChild.run ⟨blankRPr, []⟩] ++
            (if (cutAt r.text target).2.isEmpty then []
             else [PChild.run ⟨⟨r.rPr.rStyle, []⟩, (cutAt r.text target).2⟩])) ++
          post⟩ :: ps2) ⟨blankRPr, []⟩ ∧
    (∀ (t : Text) (m : Bool) (ds qs : List Para) (a : Run),
        add_comment_to_paragraph t m ds = .ok qs a →
        a.text = [] ∧ a.rPr = blankRPr) := by
  constructor
  · have hpt := paraText_occurs target pp ats pre post r hr
    have hf := findRunSplit_first target (commentFragAnchor target) r hr pre post hpre
    have hgo : addCommentGo target false
        ((⟨pp, ats, pre ++ PChild.run r :: post⟩ : Para) :: ps2) =
        some (⟨pp, ats, pre ++ commentFragAnchor target r ++ post⟩ :: ps2) := by
      simp only [addCommentGo, hpt, if_true, Bool.false_eq_true, if_false]
      rw [hf]
    have happ := addCommentGo_append target false ps1
      ((⟨pp, ats, pre ++ PChild.run r :: post⟩ : Para) :: ps2) hps1
    rw [add_comment_to_paragraph, if_neg (by simp [hws]), happ, hgo]
    rfl
  · intro t m ds qs a h
    rw [add_comment_to_paragraph] at h
    by_cases hw : t.all Char.isWhitespace = true
    · rw [if_pos hw] at h; cases h
    · rw [if_neg hw] at h
      cases hg : addCommentGo t m ds with
      | none => rw [hg] at h; cases h
      | some qs' => rw [hg] at h; cases h; exact ⟨rfl, rfl⟩

/-- Witness for `c6_amended_thm` at a concrete input: one paragraph whose
single styled run is exactly the target. -/
theorem c6_witness :
    add_comment_to_paragraph ['X'] false
        ([] ++ (⟨none, [], [] ++ PChild.run ⟨⟨some ['s'], []⟩, ['X']⟩ :: []⟩ : Para) :: []) =
      .ok ([] ++ (⟨none, [],
          [] ++ ([PChild.run { rPr := ⟨some ['s'], []⟩, text := (cutAt ['X'] ['X']).1 },
                  PChild.run ⟨⟨some ['s'], []⟩, ['X']⟩,
                  PChild.run ⟨blankRPr, []⟩] ++
            (if (cutAt ['X'] ['X']).2.isEmpty then []
             else [PChild.run ⟨⟨some ['s'], []⟩, (cutAt ['X'] ['X']).2⟩])) ++
          []⟩ : Para) :: []) ⟨blankRPr, []⟩ ∧
    (⟨blankRPr, []⟩ : Run).text = [] ∧ (⟨blankRPr, []⟩ : Run).rPr = blankRPr := by
  have h := c6_amended_thm ['X'] [] [] none [] [] [] ⟨⟨some ['s'], []⟩, ['X']⟩
    (by decide) (by simp) (by simp) (by decide)
  exact ⟨h.1, h.2 ['X'] false
    [⟨none, [], [PChild.run ⟨⟨some ['s'], []⟩, ['X']⟩]⟩]
    [⟨none, [],
      [PChild.run ⟨⟨some ['s'], []⟩, []⟩,
       PChild.run ⟨⟨some ['s'], []⟩, ['X']⟩,
       PChild.run ⟨blankRPr, []⟩]⟩] ⟨blankRPr, []⟩ rfl⟩

/-- C7, counterexample.  Body of two paragraphs; the first carries paragraph
properties (`w:pPr`) and contains the target.  In new-paragraph mode the
paragraph inserted after it (`_insert_paragraph_after`) is stripped of **all**
children — `for n in list(new_p): new_p.remove(n)` removes the `w:pPr` child
too, so paragraph-level properties are not retained — and the blank anchor
run is added to `para._parent._body._paragraphs[-1]`, the **last** paragraph
of the body (here the unrelated second paragraph), so the inserted paragraph
has no run at all, let alone exactly one empty one. -/
theorem c7_counterexample :
    add_comment_to_paragraph ['X'] true
        [⟨some ['z'], ['a'], [PChild.run ⟨blankRPr, ['X']⟩]⟩, ⟨none, [], []⟩] =
      .ok [⟨some ['z'], ['a'],
            [PChild.run ⟨blankRPr, []⟩, PChild.run ⟨blankRPr, ['X']⟩]⟩,
           ⟨none, ['a'], []⟩,
           ⟨none, [], [PChild.run ⟨blankRPr, []⟩]⟩] ⟨blankRPr, []⟩ ∧
    (⟨none, ['a'], []⟩ : Para).pPr ≠
      (⟨some ['z'], ['a'], [PChild.run ⟨blankRPr, ['X']⟩]⟩ : Para).pPr ∧
    (⟨none, ['a'], []⟩ : Para).children.length ≠ 1 :=
  ⟨rfl, by decide, by decide⟩

/-- C7, amended: in new-paragraph mode a copy of the matched paragraph
retaining only the element's own attributes — no children, and in particular
no paragraph-properties child — is inserted as its immediate next sibling,
and one blank run is appended to the **last** paragraph of the body: to the
inserted paragraph exactly when the matched paragraph was last (then the
claim's "exactly one empty run" holds), otherwise to the unrelated final
paragraph, leaving the inserted paragraph childless.  The run handed to
`add_comment` is that blank run. -/
theorem c7_amended_thm (target : Text) (ps1 ps2 : List Para)
    (pp : Option Text) (ats : Text) (pre post : List PChild) (r : Run)
    (hws : target.all Char.isWhitespace = false)
    (hps1 : ∀ q ∈ ps1, occursIn target (paraText q) = false)
    (hpre : ∀ c ∈ pre, directRunHas target c = false)
    (hr : occursIn target r.text = true) :
    add_comment_to_paragraph target true
        (ps1 ++ ⟨pp, ats, pre ++ PChild.run r :: post⟩ :: ps2) =
      .ok (ps1 ++ ⟨pp, ats,
          pre ++ ([PChild.run { r with text := (cutAt r.text target).1 },
                   PChild.run ⟨⟨r.rPr.rStyle, []⟩, target⟩] ++
            (if (cutAt r.text target).2.isEmpty then []
             else [PChild.run ⟨⟨r.rPr.rStyle, []⟩, (cutAt r.text target).2⟩])) ++
          post⟩ :: appendBlankRunLast (⟨none, ats, []⟩ :: ps2)) ⟨blankRPr, []⟩ ∧
    (⟨none, ats, []⟩ : Para).pPr = none ∧
    (ps2 = [] → appendBlankRunLast (⟨none, ats, []⟩ :: ps2) =
       [⟨none, ats, [PChild.run ⟨blankRPr, []⟩]⟩]) ∧
    (∀ qs0 qlast, ps2 = qs0 ++ [qlast] →
       appendBlankRunLast (⟨none, ats, []⟩ :: ps2) =
         ⟨none, ats, []⟩ :: (qs0 ++
           [{ qlast with children := qlast.children ++ [PChild.run ⟨blankRPr, []⟩] }])) := by
  refine ⟨?_, rfl, ?_, ?_⟩
  · have hpt := paraText_occurs target pp ats pre post r hr
    have hf := findRunSplit_first target (commentFrag target) r hr pre post hpre
    have hgo : addCommentGo target true
        ((⟨pp, ats, pre ++ PChild.run r :: post⟩ : Para) :: ps2) =
        some (⟨pp, ats, pre ++ commentFrag target r ++ post⟩ ::
          appendBlankRunLast (⟨none, ats, []⟩ :: ps2)) := by
      simp only [addCommentGo, hpt, if_true]
      rw [hf]
    have happ := addCommentGo_append target true ps1
      ((⟨pp, ats, pre ++ PChild.run r :: post⟩ : Para) :: ps2) hps1
    rw [add_comment_to_paragraph, if_neg (by simp [hws]), happ, hgo]
    rfl
  · intro h
    subst h
    rfl
  · intro qs0 qlast h
    subst h
    have := appendBlankRunLast_eq ((⟨none, ats, []⟩ : Para) :: qs0) qlast
    simpa using this

/-- Witness for `c7_amended_thm` at a concrete input: the matched paragraph
is the last in the body, so the inserted paragraph receives the anchor run. -/
theorem c7_witness :
    add_comment_to_paragraph ['X'] true
        ([] ++ (⟨some ['z'], ['a'], [] ++ PChild.run ⟨blankRPr, ['X']⟩ :: []⟩ : Para) :: []) =
      .ok ([] ++ (⟨some ['z'], ['a'],
          [] ++ ([PChild.run { rPr := blankRPr, text := (cutAt ['X'] ['X']).1 },
                  PChild.run ⟨⟨blankRPr.rStyle, []⟩, ['X']⟩] ++
            (if (cutAt ['X'] ['X']).2.isEmpty then []
             else [PChild.run ⟨⟨blankRPr.rStyle, []⟩, (cutAt ['X'] ['X']).2⟩])) ++
          []⟩ : Para) :: appendBlankRunLast (⟨none, ['a'], []⟩ :: [])) ⟨blankRPr, []⟩ ∧
    appendBlankRunLast ((⟨none, ['a'], []⟩ : Para) :: []) =
      [⟨none, ['a'], [PChild.run ⟨blankRPr, []⟩]⟩] := by
  have h := c7_amended_thm ['X'] [] [] (some ['z']) ['a'] [] [] ⟨blankRPr, ['X']⟩
    (by decide) (by simp) (by simp) (by decide)
  exact ⟨h.1, h.2.2.1 rfl⟩

/-- C10: `add_comment_to_paragraph` re-reads the document from the file at
`self.docx_path` (line 208) instead of using `self.doc_tree`, and on success
saves that copy and rebuilds `doc_tree` and the id counter from the saved
file (lines 267–273).  Hence its entire resulting session state is a function
of the on-disk source alone: running any `modify_text_in_doc` first changes
nothing about the outcome, so unsaved tracked-change edits are discarded. -/
theorem c10_comment_discards_edits (s : Session) (old new author ts target : Text)
    (mode : Bool) (qs : List Para) (anchor : Run)
    (h : add_comment_to_paragraph target mode s.source = .ok qs anchor) :
    sessionAddComment (sessionModify s old new author ts).1 target mode =
      ⟨qs, qs, highest_existing_change_id qs + 1, some qs⟩ ∧
    sessionAddComment s target mode =
      ⟨qs, qs, highest_existing_change_id qs + 1, some qs⟩ ∧
    sessionAddComment (sessionModify s old new author ts).1 target mode =
      sessionAddComment s target mode := by
  have hsrc : (sessionModify s old new author ts).1.source = s.source := by
    rw [sessionModify]
    cases modify_text_in_doc old new author ts s.nextId s.doc_tree <;> rfl
  have h1 : sessionAddComment (sessionModify s old new author ts).1 target mode =
      ⟨qs, qs, highest_existing_change_id qs + 1, some qs⟩ := by
    rw [sessionAddComment, hsrc, h]
  have h2 : sessionAddComment s target mode =
      ⟨qs, qs, highest_existing_change_id qs + 1, some qs⟩ := by
    rw [sessionAddComment, h]
  exact ⟨h1, h2, h1.trans h2.symm⟩

/-- Witness for `c10_comment_discards_edits` at a concrete input: a session on
a one-paragraph document, one substitution call, then a comment call. -/
theorem c10_witness :
    sessionAddComment
        (sessionModify (initSession [⟨none, [], [PChild.run ⟨blankRPr, ['X']⟩]⟩])
          ['X'] ['Y'] [] []).1 ['X'] false =
      ⟨[⟨none, [], [PChild.run ⟨blankRPr, []⟩, PChild.run ⟨blankRPr, ['X']⟩,
                    PChild.run ⟨blankRPr, []⟩]⟩],
       [⟨none, [], [PChild.run ⟨blankRPr, []⟩, PChild.run ⟨blankRPr, ['X']⟩,
                    PChild.run ⟨blankRPr, []⟩]⟩],
       highest_existing_change_id
         [⟨none, [], [PChild.run ⟨blankRPr, []⟩, PChild.run ⟨blankRPr, ['X']⟩,
                      PChild.run ⟨blankRPr, []⟩]⟩] + 1,
       some [⟨none, [], [PChild.run ⟨blankRPr, []⟩, PChild.run ⟨blankRPr, ['X']⟩,
                         PChild.run ⟨blankRPr, []⟩]⟩]⟩ ∧
    sessionAddComment (initSession [⟨none, [], [PChild.run ⟨blankRPr, ['X']⟩]⟩])
        ['X'] false =
      ⟨[⟨none, [], [PChild.run ⟨blankRPr, []⟩, PChild.run ⟨blankRPr, ['X']⟩,
                    PChild.run ⟨blankRPr, []⟩]⟩],
       [⟨none, [], [PChild.run ⟨blankRPr, []⟩, PChild.run ⟨blankRPr, ['X']⟩,
                    PChild.run ⟨blankRPr, []⟩]⟩],
       highest_existing_change_id
         [⟨none, [], [PChild.run ⟨blankRPr, []⟩, PChild.run ⟨blankRPr, ['X']⟩,
                      PChild.run ⟨blankRPr, []⟩]⟩] + 1,
       some [⟨none, [], [PChild.run ⟨blankRPr, []⟩, PChild.run ⟨blankRPr, ['X']⟩,
                         PChild.run ⟨blankRPr, []⟩]⟩]⟩ := by
  have h := c10_comment_discards_edits
    (initSession [⟨none, [], [PChild.run ⟨blankRPr, ['X']⟩]⟩]) ['X'] ['Y'] [] []
    ['X'] false
    [⟨none, [], [PChild.run ⟨blankRPr, []⟩, PChild.run ⟨blankRPr, ['X']⟩,
                 PChild.run ⟨blankRPr, []⟩]⟩] ⟨blankRPr, []⟩ rfl
  exact ⟨h.1, h.2.1⟩
